import Mathlib

/-!
Verification of the Kansas workers'-compensation PDF chunking pipeline
(`kswc_processor`): a shallow embedding of the pure text-processing core
(`chunking.py`, `section_processing.py`, `metadata_extraction.py`,
`processors.py`, `utils.py`, `config.py`) together with theorems settling
the specification's claims about it.

Text is modelled as `List Char`.  Python's whitespace-driven primitives
(`str.split()`, `str.strip()`, `re.split(r'\n\s*\n', ...)`,
`re.sub(r'\s+', ' ', ...)`) are embedded as executable Lean functions over
`List Char`; file I/O and the PDF byte extractor are modelled by explicit
parameters (existing output records as a list, extraction as an `Except`
value), matching the spec's view of them as external collaborators.
-/

namespace KSWC

/-- Shorthand: the character list of a string literal. -/
def str (s : String) : List Char := s.toList

/-- Python whitespace (the set matched by `\s` in `str` patterns and by
`str.split()` / `str.strip()`): ASCII space, tab, newline, carriage
return, vertical tab, form feed, the file/group/record/unit separators,
and the Unicode space characters. -/
def pyIsSpace (c : Char) : Bool :=
  c = ' ' || c = '\t' || c = '\n' || c = '\r' || c.val = 11 || c.val = 12 ||
  (28 ≤ c.val && c.val ≤ 31) || c.val = 133 || c.val = 160 ||
  c.val = 5760 || (8192 ≤ c.val && c.val ≤ 8202) ||
  c.val = 8232 || c.val = 8233 || c.val = 8239 || c.val = 8287 || c.val = 12288

/-- ASCII lowercase letter. -/
def isAsciiLower (c : Char) : Bool := 'a' ≤ c && c ≤ 'z'

/-- ASCII uppercase letter. -/
def isAsciiUpper (c : Char) : Bool := 'A' ≤ c && c ≤ 'Z'

/-- ASCII letter. -/
def isAsciiAlpha (c : Char) : Bool := isAsciiLower c || isAsciiUpper c

/-- ASCII digit. -/
def isAsciiDigit (c : Char) : Bool := '0' ≤ c && c ≤ '9'

/-- Word character, as matched by `\w` (ASCII approximation: the source
documents are ASCII text, and every character adjacent to the patterns'
literals that the claims exercise is ASCII). -/
def isWordChar (c : Char) : Bool := isAsciiAlpha c || isAsciiDigit c || c = '_'

/-- Python `str.strip()`: drop leading and trailing whitespace. -/
def pyStrip (s : List Char) : List Char :=
  ((s.dropWhile pyIsSpace).reverse.dropWhile pyIsSpace).reverse

/-- Python `str.isupper()`: at least one cased character and no lowercase
cased character (ASCII model). -/
def pyIsUpperStr (s : List Char) : Bool :=
  s.any isAsciiAlpha && s.all (fun c => !isAsciiLower c)

mutual

/-- Python `str.split()` (no separator argument): the list of maximal
whitespace-free runs, empty runs discarded.  Scanning state: outside a word. -/
def pyWords : List Char → List (List Char)
  | [] => []
  | c :: rest => if pyIsSpace c then pyWords rest else pyWordsIn [c] rest

/-- Scanning state of `pyWords`: inside a word whose characters so far are
`acc` (reversed). -/
def pyWordsIn (acc : List Char) : List Char → List (List Char)
  | [] => [acc.reverse]
  | c :: rest =>
      if pyIsSpace c then acc.reverse :: pyWords rest else pyWordsIn (c :: acc) rest

end

/-- `len(s.split())`: the word count used by the chunker as a token proxy. -/
def wordCount (s : List Char) : Nat := (pyWords s).length

/-! ## The paragraph separator `re.split(r'\n\s*\n', text)`

A match of `\n\s*\n` at a position consists of a `'\n'`, then (greedy,
with backtracking into the `\s*`) the longest whitespace prefix of the
remainder whose next character is `'\n'`, then that `'\n'`.  Since `'\n'`
is itself whitespace, the match is: a `'\n'` followed by the portion of
the maximal whitespace run after it that ends at the run's **last**
`'\n'`.  `re.split` removes the leftmost such matches, scanning left to
right and resuming after each match. -/

/-- Index of the last `'\n'` in a list, if any. -/
def lastNlIdx : List Char → Option Nat
  | [] => none
  | c :: rest =>
      match lastNlIdx rest with
      | some k => some (k + 1)
      | none => if c = '\n' then some 0 else none

/-- After an initial `'\n'`, the number of characters `\s*\n` consumes from
the remainder (greedy): one past the last `'\n'` of the maximal whitespace
run, if that run contains a `'\n'`. -/
def sepConsume (rest : List Char) : Option Nat :=
  (lastNlIdx (rest.takeWhile pyIsSpace)).map (· + 1)

/-- Total length of the `\n\s*\n` match at the head of `l`, if any. -/
def sepMatch : List Char → Option Nat
  | [] => none
  | c :: rest => if c = '\n' then (sepConsume rest).map (· + 1) else none

/-- Leftmost separator match: the piece before it and the remainder after it. -/
def splitOnce : List Char → Option (List Char × List Char)
  | [] => none
  | c :: rest =>
      match sepMatch (c :: rest) with
      | some m => some ([], (c :: rest).drop m)
      | none => (splitOnce rest).map (fun p => (c :: p.1, p.2))

/-- `re.split(r'\n\s*\n', ·)`, fuelled: each separator consumes at least two
characters, so `fuel = length` always suffices (see `pySplit`). -/
def pySplitAux : Nat → List Char → List (List Char)
  | 0, s => [s]
  | fuel + 1, s =>
      match splitOnce s with
      | none => [s]
      | some (p, r) => p :: pySplitAux fuel r

/-- `re.split(r'\n\s*\n', text)`: the paragraph list the chunker works on. -/
def pySplit (s : List Char) : List (List Char) := pySplitAux s.length s

/-- Invariant of a piece produced by the split with a separator after it:
every `'\n'` in it is followed, within the piece, by a whitespace run that
contains no `'\n'` and ends (at a non-whitespace character) before the
piece does.  Such a piece admits no separator match even when more text is
appended after it. -/
def sealedB : List Char → Bool
  | [] => true
  | c :: rest =>
      (if c = '\n' then
        !decide ('\n' ∈ rest.takeWhile pyIsSpace) &&
          decide ((rest.takeWhile pyIsSpace).length < rest.length)
       else true) && sealedB rest

/-- Invariant of the final piece of the split: every `'\n'` in it is
followed by a whitespace run without `'\n'` (the run may reach the end).
Such a piece admits no separator match on its own. -/
def tameB : List Char → Bool
  | [] => true
  | c :: rest =>
      (if c = '\n' then !decide ('\n' ∈ rest.takeWhile pyIsSpace) else true) && tameB rest

/-- Invariant of a piece produced by the split with a separator before it:
its leading whitespace contains no `'\n'` (the separator consumed the last
`'\n'` of its whitespace run). -/
def leadOkB (p : List Char) : Bool := !decide ('\n' ∈ p.takeWhile pyIsSpace)

/-- The piece contains a non-whitespace character. -/
def hasNonWsB (p : List Char) : Bool := p.any (fun c => !pyIsSpace c)

/-- The joint invariant of a non-empty run of consecutive split pieces:
all pieces but the last are sealed, the last is tame, every piece after
the first has `'\n'`-free leading whitespace, and every interior piece has
a non-whitespace character.  `pySplit` establishes it for its full output,
it restricts to contiguous sub-runs, and re-splitting the `'\n\n'`-join of
such a run recovers exactly the run. -/
def segInv : List (List Char) → Prop
  | [] => True
  | [p] => tameB p = true
  | p :: q :: rest =>
      sealedB p = true ∧ leadOkB q = true ∧ (rest ≠ [] → hasNonWsB q = true) ∧
        segInv (q :: rest)

/-! ## `create_logical_chunks` (`chunking.py`) -/

/-- The paragraph-joining separator `'\n\n'`. -/
def parSep : List Char := ['\n', '\n']

/-- `'\n\n'.join(paragraphs)`. -/
def joinParSep : List (List Char) → List Char
  | [] => []
  | [q] => q
  | q :: rest => q ++ parSep ++ joinParSep rest

/-- The accumulation loop of `create_logical_chunks`, returning the groups of
paragraphs that are joined into chunks: `cur` is `current_chunk`, `size` is
`current_size`.  A paragraph whose addition would push `current_size` past
`max_tokens` flushes a non-empty current chunk first. -/
def chunkAux : List (List Char) → List (List Char) → Nat → Nat → List (List (List Char))
  | [], cur, _, _ => if cur.isEmpty then [] else [cur]
  | p :: ps, cur, size, maxT =>
      if size + wordCount p > maxT ∧ ¬cur.isEmpty then
        cur :: chunkAux ps [p] (wordCount p) maxT
      else
        chunkAux ps (cur ++ [p]) (size + wordCount p) maxT

/-- `create_logical_chunks(text, max_tokens)`: split on blank lines, then
accumulate paragraphs into chunks joined with `'\n\n'`. -/
def create_logical_chunks (text : List Char) (maxTokens : Nat) : List (List Char) :=
  (chunkAux (pySplit text) [] 0 maxTokens).map joinParSep

/-! ## `clean_section_text` (`section_processing.py`) -/

/-- Python `str.split('\n')`: split at every newline, keeping empty pieces;
the result is always non-empty. -/
def splitOnNl : List Char → List (List Char)
  | [] => [[]]
  | c :: rest =>
      if c = '\n' then [] :: splitOnNl rest
      else
        match splitOnNl rest with
        | [] => [[c]]
        | h :: t => (c :: h) :: t

/-- `re.sub(r'\s+', ' ', ·)`: collapse each maximal whitespace run to a
single space.  The flag records whether the previous character was part of
a whitespace run already emitted. -/
def collapseWsAux (prevSpace : Bool) : List Char → List Char
  | [] => []
  | c :: rest =>
      if pyIsSpace c then
        if prevSpace then collapseWsAux true rest
        else ' ' :: collapseWsAux true rest
      else c :: collapseWsAux false rest

/-- `re.sub(r'\s+', ' ', ·)`. -/
def collapseWs (s : List Char) : List Char := collapseWsAux false s

/-- `re.sub(r'(\w)- (\w)', r'\1\2', ·)`: undo line-break hyphenation.
`re.sub` scans left to right for non-overlapping matches and resumes after
each replaced span. -/
def fixHyphens : List Char → List Char
  | [] => []
  | a :: '-' :: ' ' :: b :: rest =>
      if isWordChar a ∧ isWordChar b then a :: b :: fixHyphens rest
      else a :: fixHyphens ('-' :: ' ' :: b :: rest)
  | a :: rest => a :: fixHyphens rest

/-- `clean_section_text`: drop a fully-uppercase first line, collapse
whitespace runs to single spaces, repair hyphenation, and strip. -/
def clean_section_text (s : List Char) : List Char :=
  let lines := splitOnNl s
  let s1 :=
    match lines with
    | [] => s
    | l0 :: rest => if pyIsUpperStr l0 then List.intercalate ['\n'] rest else s
  pyStrip (fixHyphens (collapseWs s1))

/-! ## `identify_sections` (`section_processing.py`) and `SECTION_PATTERNS`
(`config.py`)

Every configured pattern has the shape `\bLIT( OPT)?\b` with `LIT` (and
`OPT`, when present) beginning and ending in letters, so `\b` at the start
amounts to "the previous character, if any, is not a word character" and
`\b` at the end to "the next character, if any, is not a word character".
The optional group is tried first (greedy) and the engine backtracks to
the bare literal when the trailing `\b` fails. -/

/-- One section-heading pattern `\b lit (opt)? \b`. -/
structure SectionPat where
  lit : List Char
  opt : Option (List Char)
deriving DecidableEq

/-- The ordered `SECTION_PATTERNS` list of `config.py`. -/
def SECTION_PATTERNS : List SectionPat :=
  [⟨str "APPEARANCES", none⟩,
   ⟨str "RECORD AND STIPULATIONS", none⟩,
   ⟨str "ISSUES", none⟩,
   ⟨str "FINDINGS OF FACT", none⟩,
   ⟨str "PRINCIPLES OF LAW", some (str " AND ANALYSIS")⟩,
   ⟨str "ANALYSIS", none⟩,
   ⟨str "CONCLUSION", some (str "S")⟩,
   ⟨str "AWARD", none⟩,
   ⟨str "ORDER", none⟩,
   ⟨str "DECISION", none⟩]

/-- Does the literal `pat` occur in `text` starting at index `i`? -/
def litAt (text pat : List Char) (i : Nat) : Bool :=
  ((text.drop i).take pat.length) == pat

/-- `\b` before index `i`, for a match whose first character is a word
character: start of text, or previous character not a word character. -/
def boundaryBefore (text : List Char) (i : Nat) : Bool :=
  i == 0 || !isWordChar (text.getD (i - 1) ' ')

/-- `\b` after index `j` (exclusive end), for a match whose last character is
a word character: end of text, or next character not a word character. -/
def boundaryAfter (text : List Char) (j : Nat) : Bool :=
  decide (text.length ≤ j) || !isWordChar (text.getD j ' ')

/-- Length of the match of pattern `p` at index `i` of `text`, if any. -/
def matchPatAt (p : SectionPat) (text : List Char) (i : Nat) : Option Nat :=
  if boundaryBefore text i && litAt text p.lit i then
    match p.opt with
    | some o =>
        if litAt text o (i + p.lit.length) &&
            boundaryAfter text (i + p.lit.length + o.length) then
          some (p.lit.length + o.length)
        else if boundaryAfter text (i + p.lit.length) then some p.lit.length
        else none
    | none => if boundaryAfter text (i + p.lit.length) then some p.lit.length else none
  else none

/-- `re.finditer`: scan left to right, resuming after each (non-empty)
match; every literal is non-empty so `length + 1` fuel always suffices. -/
def finditerAux (p : SectionPat) (text : List Char) : Nat → Nat → List (Nat × List Char)
  | _, 0 => []
  | i, fuel + 1 =>
      if text.length ≤ i then []
      else
        match matchPatAt p text i with
        | some L => (i, (text.drop i).take L) :: finditerAux p text (i + L) fuel
        | none => finditerAux p text (i + 1) fuel

/-- All matches of one pattern, as `(start, matched text)` pairs. -/
def finditer (p : SectionPat) (text : List Char) : List (Nat × List Char) :=
  finditerAux p text 0 (text.length + 1)

/-- `section_positions` before sorting: every pattern's matches, in pattern
order. -/
def allSectionMatches (text : List Char) : List (Nat × List Char) :=
  (SECTION_PATTERNS.map (fun p => finditer p text)).flatten

/-- Stable insertion into a list sorted by start position (ties keep the
existing, earlier-discovered entry first — matching Python's stable sort). -/
def insertPos (x : Nat × List Char) : List (Nat × List Char) → List (Nat × List Char)
  | [] => [x]
  | y :: ys => if y.1 ≤ x.1 then y :: insertPos x ys else x :: y :: ys

/-- Stable sort by start position (`section_positions.sort(key=...)`). -/
def sortPos : List (Nat × List Char) → List (Nat × List Char)
  | [] => []
  | x :: xs => insertPos x (sortPos xs)

/-- One identified section: the tuple
`(section_name, section_text, page_num, start_pos)`. -/
structure Sect where
  name : List Char
  text : List Char
  page : Nat
  start : Nat
deriving DecidableEq

/-- The page-number scan of `identify_sections`: first page whose cumulative
character range (page length plus one joining newline per page) contains
`startPos`; defaults to `0` when no page does. -/
def pageNumAux (startPos : Nat) : List (List Char) → Nat → Nat → Nat
  | [], _, _ => 0
  | pg :: rest, idx, cur =>
      if cur ≤ startPos ∧ startPos < cur + pg.length then idx
      else pageNumAux startPos rest (idx + 1) (cur + pg.length + 1)

/-- Page number containing offset `startPos` of the joined text. -/
def pageNumOf (pages : List (List Char)) (startPos : Nat) : Nat :=
  pageNumAux startPos pages 0 0

/-- `combined_text[a:b].strip()`. -/
def sliceStrip (combined : List Char) (a b : Nat) : List Char :=
  pyStrip ((combined.drop a).take (b - a))

/-- Build sections from the sorted match positions: each section's span runs
from its start to the next match's start, the last to the end of the text. -/
def buildSections (combined : List Char) (pages : List (List Char)) :
    List (Nat × List Char) → List Sect
  | [] => []
  | [(p, nm)] => [⟨nm, sliceStrip combined p combined.length, pageNumOf pages p, p⟩]
  | (p, nm) :: (q, nm2) :: rest =>
      ⟨nm, sliceStrip combined p q, pageNumOf pages p, p⟩ ::
        buildSections combined pages ((q, nm2) :: rest)

/-- `identify_sections(pages)`. -/
def identify_sections (pages : List (List Char)) : List Sect :=
  let combined := List.intercalate ['\n'] pages
  buildSections combined pages (sortPos (allSectionMatches combined))

/-! ## `extract_case_info` (`metadata_extraction.py`)

The regex searches themselves are abstracted: each of the three pattern
lists contributes, per pattern, the (optional) text of capture group 1
that `re.search` would produce.  The selection loops over those candidate
lists are embedded exactly. -/

/-- The validation applied to claimant/respondent candidates:
`' ' in name and name.isupper()`. -/
def validName (s : List Char) : Bool := s.contains ' ' && pyIsUpperStr s

/-- The claimant/respondent selection loop: strip the first pattern's
candidate; accept it (and stop) only if it passes `validName`, otherwise
fall through to the next pattern; default `"Unknown"`. -/
def selectName : List (Option (List Char)) → List Char
  | [] => str "Unknown"
  | none :: rest => selectName rest
  | some c :: rest => if validName (pyStrip c) then pyStrip c else selectName rest

/-- The docket selection loop: the first pattern that matches wins
unconditionally (stripped); default `"Unknown"`. -/
def selectDocket : List (Option (List Char)) → List Char
  | [] => str "Unknown"
  | none :: rest => selectDocket rest
  | some c :: _rest => pyStrip c

/-- The dictionary returned by `extract_case_info`. -/
structure CaseInfo where
  claimant : List Char
  docket : List Char
  respondent : List Char
deriving DecidableEq

/-- `extract_case_info`, parameterised by the per-pattern capture-group
results of the three regex lists. -/
def extract_case_info (claimantMs docketMs respondentMs : List (Option (List Char))) :
    CaseInfo :=
  ⟨selectName claimantMs, selectDocket docketMs, selectName respondentMs⟩

/-! ## `create_chunks_with_metadata` (`chunking.py`) -/

/-- `MAX_CHUNK_SIZE` from `config.py`. -/
def MAX_CHUNK_SIZE : Nat := 800

/-- The document metadata dictionary after `metadata['filename'] = filename`. -/
structure CaseMeta where
  claimant : List Char
  docket : List Char
  respondent : List Char
  filename : List Char
deriving DecidableEq

/-- One output chunk record: the formatted text plus its metadata fields.
`respondent` is `none` when the metadata's respondent is `"Unknown"`
(the key is omitted from the record in that case). -/
structure Chunk where
  text : List Char
  docket : List Char
  claimant : List Char
  sectionName : List Char
  chunkIndex : Nat
  chunkCount : Nat
  filename : List Char
  respondent : Option (List Char)
deriving DecidableEq

/-- The chunk record built for chunk body `body` at index `i` of `total`. -/
def mkChunk (sectionName : List Char) (md : CaseMeta) (i total : Nat)
    (body : List Char) : Chunk :=
  { text := str "Case: " ++ md.docket ++ str " | Claimant: " ++ md.claimant ++
      str "\nSection: " ++ sectionName ++ str "\n\n" ++ body
    docket := md.docket
    claimant := md.claimant
    sectionName := sectionName
    chunkIndex := i
    chunkCount := total
    filename := md.filename
    respondent := if md.respondent ≠ str "Unknown" then some md.respondent else none }

/-- The `enumerate(chunks)` loop of `create_chunks_with_metadata`. -/
def enumChunks (sectionName : List Char) (md : CaseMeta) (total : Nat) :
    Nat → List (List Char) → List Chunk
  | _, [] => []
  | i, body :: rest =>
      mkChunk sectionName md i total body :: enumChunks sectionName md total (i + 1) rest

/-- `create_chunks_with_metadata(section_name, section_text, metadata, max_tokens)`. -/
def create_chunks_with_metadata (sectionName sectionText : List Char) (md : CaseMeta)
    (maxTokens : Nat) : List Chunk :=
  let chunks := create_logical_chunks sectionText maxTokens
  enumChunks sectionName md chunks.length 0 chunks

/-! ## The per-document pipeline (`processors.py`) -/

/-- The per-section body of the `process_pdf_file` loop: skip the section
when `len(section_text.strip()) <= len(section_name) + 5`, otherwise clean
it and chunk it with metadata. -/
def processSection (sectionName sectionText : List Char) (md : CaseMeta)
    (maxTokens : Nat) : List Chunk :=
  if (pyStrip sectionText).length ≤ sectionName.length + 5 then []
  else create_chunks_with_metadata sectionName (clean_section_text sectionText) md maxTokens

/-- `os.path.basename` (POSIX separator): the part after the last `'/'`. -/
def pyBasenameAux (cur : List Char) : List Char → List Char
  | [] => cur.reverse
  | c :: rest => if c = '/' then pyBasenameAux [] rest else pyBasenameAux (c :: cur) rest

/-- `os.path.basename`. -/
def pyBasename (p : List Char) : List Char := pyBasenameAux [] p

/-- Model of `traceback.format_exc()`: a diagnostic trace rendering that
carries the error message.  (The Python trace's frame listing is opaque to
the embedding; what matters is that the failure record retains a trace
derived from the raised exception.) -/
def mkTrace (e : List Char) : List Char :=
  str "Traceback (most recent call last):\n" ++ e

/-- The per-document `ProcessingResult` dictionary: `status == "success"`
with chunks and metadata, or `status == "error"` with the message and the
diagnostic trace. -/
inductive ProcResult where
  | success (filename : List Char) (chunks : List Chunk) (md : CaseMeta)
  | failure (filename : List Char) (errMsg : List Char) (details : List Char)
deriving DecidableEq

/-- `process_pdf_file(pdf_path)`.  The fallible external collaborators are
explicit arguments: `extractResult` is the outcome of
`extract_text_from_pdf` (`.error` models a raised exception) and `metaOf`
is `extract_enhanced_case_info` (total: pattern misses degrade to
`"Unknown"` fields, they do not raise).  The `try/except` of the source
catches every raised error and converts it into the error dictionary with
the basename, the message and the formatted trace. -/
def process_pdf_file (pdfPath : List Char)
    (extractResult : Except (List Char) (List (List Char)))
    (metaOf : List (List Char) → CaseInfo) : ProcResult :=
  match extractResult with
  | .error e => .failure (pyBasename pdfPath) e (mkTrace e)
  | .ok pages =>
      let filename := pyBasename pdfPath
      let info := metaOf pages
      let md : CaseMeta := ⟨info.claimant, info.docket, info.respondent, filename⟩
      let secs := identify_sections pages
      let chunks :=
        (secs.map (fun s => processSection s.name s.text md MAX_CHUNK_SIZE)).flatten
      .success filename chunks md

/-! ## The batch orchestrator (`processors.py`, `utils.py`) -/

/-- `PDF_EXTENSION` from `config.py`. -/
def PDF_EXTENSION : List Char := str ".pdf"

/-- Python `str.lower()` (ASCII model). -/
def pyLower (s : List Char) : List Char := s.map Char.toLower

/-- Python `str.endswith`. -/
def listEndsWith (a b : List Char) : Bool := (a.reverse.take b.length) == b.reverse

/-- `os.path.join(directory, filename)` (POSIX model). -/
def pyJoin (dir f : List Char) : List Char := dir ++ '/' :: f

/-- `find_pdf_files(directory, pattern)`: keep directory entries whose
lowercased name ends in `".pdf"` and that match the optional filter
(`re.search(pattern, filename)`, abstracted as a predicate), joined with
the directory. -/
def find_pdf_files (dir : List Char) (listing : List (List Char))
    (patMatch : Option (List Char → Bool)) : List (List Char) :=
  (listing.filter (fun f =>
      listEndsWith (pyLower f) PDF_EXTENSION &&
        match patMatch with
        | none => true
        | some pm => pm f)).map (fun f => pyJoin dir f)

/-- `get_processed_files(output_file)`: the `metadata.filename` fields of
the records already in the output file; empty when the file does not exist
(`existing = none`). -/
def get_processed_files (existing : Option (List Chunk)) : List (List Char) :=
  match existing with
  | none => []
  | some recs => recs.map (fun c => c.filename)

/-- The pure core of `process_directory`: given the directory listing, the
optional filename filter, the resume flag, the existing output-file
content and the external collaborators, return the list of paths actually
processed and the resulting output-file content (append mode when
resuming, overwrite otherwise — mirroring
`write_chunks_to_jsonl(all_chunks, output_file, append=resume)`). -/
def process_directory (dir : List Char) (listing : List (List Char))
    (patMatch : Option (List Char → Bool)) (resume : Bool)
    (existing : Option (List Chunk))
    (extractOf : List Char → Except (List Char) (List (List Char)))
    (metaOf : List (List Char) → CaseInfo) :
    List (List Char) × List Chunk :=
  let processed := if resume then get_processed_files existing else []
  let pdfFiles := (find_pdf_files dir listing patMatch).filter
    (fun f => !(processed.contains (pyBasename f)))
  let results := pdfFiles.map (fun f => process_pdf_file f (extractOf f) metaOf)
  let allChunks := (results.map (fun r =>
      match r with
      | .success _ cs _ => cs
      | .failure _ _ _ => [])).flatten
  let out :=
    if resume then (match existing with | none => [] | some recs => recs) ++ allChunks
    else allChunks
  (pdfFiles, out)

/-! # Lemmas

First, facts about the separator machinery (`lastNlIdx`, `sepConsume`,
`sepMatch`) and small `takeWhile` helpers. -/

theorem lastNlIdx_none_iff (l : List Char) : lastNlIdx l = none ↔ '\n' ∉ l := by
  induction l with
  | nil => simp [lastNlIdx]
  | cons c rest ih =>
    unfold lastNlIdx
    cases h : lastNlIdx rest with
    | some k =>
      have hm : '\n' ∈ rest := by
        by_contra hm
        rw [ih.mpr hm] at h
        exact Option.noConfusion h
      simp [hm]
    | none =>
      have hrest : '\n' ∉ rest := ih.mp h
      by_cases hc : c = '\n'
      · simp [hc, hrest]
      · simp only [List.mem_cons, not_or]
        simp only [hc, if_false, hrest, not_false_iff, and_true, true_iff]
        exact fun hx => hc hx.symm

theorem lastNlIdx_lt (l : List Char) (k : Nat) (h : lastNlIdx l = some k) :
    k < l.length := by
  induction l generalizing k with
  | nil => exact Option.noConfusion h
  | cons c rest ih =>
    unfold lastNlIdx at h
    cases hr : lastNlIdx rest with
    | some k' =>
      rw [hr] at h
      injection h with h'
      subst h'
      simpa using Nat.succ_lt_succ (ih k' hr)
    | none =>
      rw [hr] at h
      by_cases hc : c = '\n'
      · simp [hc] at h
        subst h
        simp
      · simp [hc] at h

theorem lastNlIdx_drop (l : List Char) (k : Nat) (h : lastNlIdx l = some k) :
    '\n' ∉ l.drop (k + 1) := by
  induction l generalizing k with
  | nil => exact Option.noConfusion h
  | cons c rest ih =>
    unfold lastNlIdx at h
    cases hr : lastNlIdx rest with
    | some k' =>
      rw [hr] at h
      injection h with h'
      subst h'
      simpa using ih k' hr
    | none =>
      rw [hr] at h
      by_cases hc : c = '\n'
      · simp [hc] at h
        subst h
        simpa using (lastNlIdx_none_iff rest).mp hr
      · simp [hc] at h

theorem takeWhile_append_stop (p : Char → Bool) (xs ys : List Char)
    (h : ∃ x ∈ xs, p x = false) : (xs ++ ys).takeWhile p = xs.takeWhile p := by
  induction xs with
  | nil => simp at h
  | cons c rest ih =>
    by_cases hc : p c
    · obtain ⟨x, hx, hpx⟩ := h
      rcases List.mem_cons.mp hx with rfl | hx
      · rw [hpx] at hc; cases hc
      · simp [List.takeWhile_cons, hc, ih ⟨x, hx, hpx⟩]
    · simp [List.takeWhile_cons, hc]

theorem takeWhile_append_all (p : Char → Bool) (xs ys : List Char)
    (h : ∀ x ∈ xs, p x = true) : (xs ++ ys).takeWhile p = xs ++ ys.takeWhile p := by
  induction xs with
  | nil => simp
  | cons c rest ih =>
    have hc := h c (List.mem_cons_self c rest)
    simp [List.takeWhile_cons, hc, ih (fun x hx => h x (List.mem_cons_of_mem c hx))]

theorem takeWhile_dropWhile_nil (p : Char → Bool) (l : List Char) :
    (l.dropWhile p).takeWhile p = [] := by
  induction l with
  | nil => rfl
  | cons c rest ih =>
    by_cases hc : p c <;> simp [List.dropWhile_cons, List.takeWhile_cons, hc, ih]

theorem sepConsume_none_iff (rest : List Char) :
    sepConsume rest = none ↔ '\n' ∉ rest.takeWhile pyIsSpace := by
  unfold sepConsume
  cases h : lastNlIdx (rest.takeWhile pyIsSpace) with
  | none => simp [(lastNlIdx_none_iff _).mp h]
  | some k =>
    have hm : '\n' ∈ rest.takeWhile pyIsSpace := by
      by_contra hm
      rw [(lastNlIdx_none_iff _).mpr hm] at h
      exact Option.noConfusion h
    simp [hm]

theorem length_takeWhile_le' (p : Char → Bool) (l : List Char) :
    (l.takeWhile p).length ≤ l.length := by
  induction l with
  | nil => simp
  | cons c rest ih =>
    by_cases hc : p c
    · simp only [List.takeWhile_cons, if_pos hc, List.length_cons]
      omega
    · simp [List.takeWhile_cons, hc]

theorem sepConsume_some (rest : List Char) (cnt : Nat) (h : sepConsume rest = some cnt) :
    1 ≤ cnt ∧ cnt ≤ rest.length ∧ '\n' ∉ (rest.drop cnt).takeWhile pyIsSpace := by
  unfold sepConsume at h
  cases hl : lastNlIdx (rest.takeWhile pyIsSpace) with
  | none => rw [hl] at h; exact Option.noConfusion h
  | some k =>
    rw [hl] at h
    simp only [Option.map_some'] at h
    injection h with h'
    have hk : k < (rest.takeWhile pyIsSpace).length := lastNlIdx_lt _ k hl
    have hlen : (rest.takeWhile pyIsSpace).length ≤ rest.length :=
      length_takeWhile_le' _ _
    have hcnt : cnt = k + 1 := h'.symm
    subst hcnt
    refine ⟨Nat.le_add_left 1 k, by omega, ?_⟩
    have hsplit : rest.takeWhile pyIsSpace ++ rest.dropWhile pyIsSpace = rest :=
      List.takeWhile_append_dropWhile pyIsSpace rest
    have hdrop : rest.drop (k + 1) =
        (rest.takeWhile pyIsSpace).drop (k + 1) ++ rest.dropWhile pyIsSpace := by
      conv_lhs => rw [← hsplit]
      exact List.drop_append_of_le_length (by omega)
    rw [hdrop, takeWhile_append_all _ _ _
      (fun x hx => List.mem_takeWhile_imp (List.drop_subset _ _ hx)),
      takeWhile_dropWhile_nil]
    have := lastNlIdx_drop _ k hl
    simpa using this

theorem sepMatch_cons_ne (c : Char) (rest : List Char) (hc : c ≠ '\n') :
    sepMatch (c :: rest) = none := by
  simp [sepMatch, hc]

theorem sepMatch_nl (rest : List Char) :
    sepMatch ('\n' :: rest) = (sepConsume rest).map (· + 1) := by
  simp [sepMatch]

theorem sepMatch_nl_none_iff (rest : List Char) :
    sepMatch ('\n' :: rest) = none ↔ '\n' ∉ rest.takeWhile pyIsSpace := by
  rw [sepMatch_nl, Option.map_eq_none']
  exact sepConsume_none_iff rest

theorem sepMatch_some_facts (l : List Char) (m : Nat) (h : sepMatch l = some m) :
    2 ≤ m ∧ m ≤ l.length ∧ '\n' ∉ (l.drop m).takeWhile pyIsSpace ∧
      ∃ rest, l = '\n' :: rest := by
  cases l with
  | nil => exact Option.noConfusion h
  | cons c rest =>
    by_cases hc : c = '\n'
    · subst hc
      rw [sepMatch_nl] at h
      cases hs : sepConsume rest with
      | none => rw [hs] at h; exact Option.noConfusion h
      | some cnt =>
        rw [hs] at h
        simp only [Option.map_some'] at h
        injection h with h'
        obtain ⟨h1, h2, h3⟩ := sepConsume_some rest cnt hs
        have hm : m = cnt + 1 := h'.symm
        subst hm
        exact ⟨by omega, by simpa using Nat.succ_le_succ h2, by simpa using h3,
          rest, rfl⟩
    · rw [sepMatch_cons_ne c rest hc] at h
      exact Option.noConfusion h

/-! Facts about `splitOnce`: the piece before the leftmost separator is
sealed, the remainder after it has `'\n'`-free leading whitespace, the
separator consumes at least two characters, and when the scanned text has
`'\n'`-free leading whitespace the piece contains a non-whitespace
character. -/

theorem pyIsSpace_nl : pyIsSpace '\n' = true := by decide

theorem takeWhile_length_lt (p : Char → Bool) (l : List Char)
    (h : ∃ x ∈ l, p x = false) : (l.takeWhile p).length < l.length := by
  induction l with
  | nil => simp at h
  | cons c rest ih =>
    by_cases hc : p c
    · obtain ⟨x, hx, hpx⟩ := h
      rcases List.mem_cons.mp hx with rfl | hx
      · rw [hpx] at hc; cases hc
      · simpa [List.takeWhile_cons, hc] using Nat.succ_lt_succ (ih ⟨x, hx, hpx⟩)
    · simp [List.takeWhile_cons, hc]

theorem splitOnce_none_tame (s : List Char) (h : splitOnce s = none) : tameB s = true := by
  induction s with
  | nil => rfl
  | cons c rest ih =>
    unfold splitOnce at h
    cases hm : sepMatch (c :: rest) with
    | some m => rw [hm] at h; exact Option.noConfusion h
    | none =>
      rw [hm] at h
      have hrest : splitOnce rest = none := Option.map_eq_none'.mp h
      unfold tameB
      rw [Bool.and_eq_true]
      refine ⟨?_, ih hrest⟩
      by_cases hc : c = '\n'
      · subst hc
        have hnl := (sepMatch_nl_none_iff rest).mp hm
        simp [hnl]
      · simp [hc]

theorem splitOnce_decomp (s p r : List Char) (h : splitOnce s = some (p, r)) :
    ∃ w, s = p ++ '\n' :: w := by
  induction s generalizing p r with
  | nil => exact Option.noConfusion h
  | cons c rest ih =>
    unfold splitOnce at h
    cases hm : sepMatch (c :: rest) with
    | some m =>
      rw [hm] at h
      simp only [Option.some.injEq, Prod.mk.injEq] at h
      obtain ⟨hp, _⟩ := h
      obtain ⟨_, _, _, w, hw⟩ := sepMatch_some_facts _ m hm
      injection hw with hw1 hw2
      exact ⟨rest, by rw [← hp, hw1, List.nil_append]⟩
    | none =>
      rw [hm] at h
      obtain ⟨⟨p', r'⟩, hpr, hf⟩ := Option.map_eq_some'.mp h
      simp only [Prod.mk.injEq] at hf
      obtain ⟨rfl, rfl⟩ := hf
      obtain ⟨w, hw⟩ := ih p' r' hpr
      exact ⟨w, by rw [hw]; rfl⟩

theorem splitOnce_leadOk (s p r : List Char) (h : splitOnce s = some (p, r)) :
    '\n' ∉ r.takeWhile pyIsSpace := by
  induction s generalizing p r with
  | nil => exact Option.noConfusion h
  | cons c rest ih =>
    unfold splitOnce at h
    cases hm : sepMatch (c :: rest) with
    | some m =>
      rw [hm] at h
      simp only [Option.some.injEq, Prod.mk.injEq] at h
      obtain ⟨_, hr⟩ := h
      obtain ⟨_, _, h3, _⟩ := sepMatch_some_facts _ m hm
      rw [← hr]
      exact h3
    | none =>
      rw [hm] at h
      obtain ⟨⟨p', r'⟩, hpr, hf⟩ := Option.map_eq_some'.mp h
      simp only [Prod.mk.injEq] at hf
      obtain ⟨rfl, rfl⟩ := hf
      exact ih p' r' hpr

theorem splitOnce_length (s p r : List Char) (h : splitOnce s = some (p, r)) :
    p.length + r.length + 2 ≤ s.length := by
  induction s generalizing p r with
  | nil => exact Option.noConfusion h
  | cons c rest ih =>
    unfold splitOnce at h
    cases hm : sepMatch (c :: rest) with
    | some m =>
      rw [hm] at h
      simp only [Option.some.injEq, Prod.mk.injEq] at h
      obtain ⟨hp, hr⟩ := h
      obtain ⟨h1, h2, _, _⟩ := sepMatch_some_facts _ m hm
      have : r.length = (c :: rest).length - m := by rw [← hr, List.length_drop]
      rw [← hp]
      simp only [List.length_nil, List.length_cons] at this h2 ⊢
      omega
    | none =>
      rw [hm] at h
      obtain ⟨⟨p', r'⟩, hpr, hf⟩ := Option.map_eq_some'.mp h
      simp only [Prod.mk.injEq] at hf
      obtain ⟨rfl, rfl⟩ := hf
      have := ih p' r' hpr
      simp only [List.length_cons]
      omega

theorem splitOnce_sealed (s p r : List Char) (h : splitOnce s = some (p, r)) :
    sealedB p = true := by
  induction s generalizing p r with
  | nil => exact Option.noConfusion h
  | cons c rest ih =>
    unfold splitOnce at h
    cases hm : sepMatch (c :: rest) with
    | some m =>
      rw [hm] at h
      simp only [Option.some.injEq, Prod.mk.injEq] at h
      obtain ⟨hp, _⟩ := h
      rw [← hp]
      rfl
    | none =>
      rw [hm] at h
      obtain ⟨⟨p', r'⟩, hpr, hf⟩ := Option.map_eq_some'.mp h
      simp only [Prod.mk.injEq] at hf
      obtain ⟨rfl, rfl⟩ := hf
      unfold sealedB
      rw [Bool.and_eq_true]
      refine ⟨?_, ih p' r' hpr⟩
      by_cases hc : c = '\n'
      · subst hc
        have hnl : '\n' ∉ rest.takeWhile pyIsSpace := (sepMatch_nl_none_iff rest).mp hm
        obtain ⟨w, hw⟩ := splitOnce_decomp rest p' r' hpr
        have hstop : ∃ x ∈ p', pyIsSpace x = false := by
          by_contra hno
          push_neg at hno
          have hall : ∀ x ∈ p', pyIsSpace x = true := by
            intro x hx
            have := hno x hx
            revert this
            cases pyIsSpace x <;> simp
          rw [hw, takeWhile_append_all _ _ _ hall] at hnl
          apply hnl
          apply List.mem_append_right
          rw [List.takeWhile_cons, if_pos pyIsSpace_nl]
          exact List.mem_cons_self _ _
        have htw : rest.takeWhile pyIsSpace = p'.takeWhile pyIsSpace := by
          rw [hw]
          exact takeWhile_append_stop _ _ _ hstop
        rw [htw] at hnl
        have hlt : (p'.takeWhile pyIsSpace).length < p'.length :=
          takeWhile_length_lt _ _ hstop
        simp [hnl, hlt]
      · simp [hc]

theorem splitOnce_nonws (s p r : List Char) (hlead : '\n' ∉ s.takeWhile pyIsSpace)
    (h : splitOnce s = some (p, r)) : hasNonWsB p = true := by
  obtain ⟨w, hw⟩ := splitOnce_decomp s p r h
  by_contra hno
  have hall : ∀ x ∈ p, pyIsSpace x = true := by
    intro x hx
    by_contra hxs
    apply hno
    unfold hasNonWsB
    rw [List.any_eq_true]
    refine ⟨x, hx, ?_⟩
    revert hxs
    cases pyIsSpace x <;> simp
  rw [hw, takeWhile_append_all _ _ _ hall] at hlead
  apply hlead
  apply List.mem_append_right
  rw [List.takeWhile_cons, if_pos pyIsSpace_nl]
  exact List.mem_cons_self _ _

/-! Re-splitting the `'\n\n'`-join of a piece run satisfying `segInv`
recovers exactly the run. -/

theorem hasNonWs_exists (p : List Char) (h : hasNonWsB p = true) :
    ∃ x ∈ p, pyIsSpace x = false := by
  unfold hasNonWsB at h
  rw [List.any_eq_true] at h
  obtain ⟨x, hx, hpx⟩ := h
  refine ⟨x, hx, ?_⟩
  revert hpx
  cases pyIsSpace x <;> simp

theorem sealed_imp_tame (p : List Char) (h : sealedB p = true) : tameB p = true := by
  induction p with
  | nil => rfl
  | cons c rest ih =>
    unfold sealedB at h
    rw [Bool.and_eq_true] at h
    obtain ⟨h1, h2⟩ := h
    unfold tameB
    rw [Bool.and_eq_true]
    refine ⟨?_, ih h2⟩
    by_cases hc : c = '\n'
    · rw [if_pos hc] at h1 ⊢
      rw [Bool.and_eq_true] at h1
      exact h1.1
    · rw [if_neg hc]

theorem tame_splitOnce_none (p : List Char) (h : tameB p = true) : splitOnce p = none := by
  induction p with
  | nil => rfl
  | cons c rest ih =>
    unfold tameB at h
    rw [Bool.and_eq_true] at h
    obtain ⟨h1, h2⟩ := h
    have hm : sepMatch (c :: rest) = none := by
      by_cases hc : c = '\n'
      · subst hc
        rw [if_pos rfl] at h1
        rw [sepMatch_nl_none_iff]
        simpa using h1
      · exact sepMatch_cons_ne c rest hc
    unfold splitOnce
    rw [hm, ih h2]
    rfl

theorem sealed_head_no_match (c : Char) (p' v : List Char)
    (h : sealedB (c :: p') = true) : sepMatch (c :: (p' ++ v)) = none := by
  unfold sealedB at h
  rw [Bool.and_eq_true] at h
  obtain ⟨h1, _⟩ := h
  by_cases hc : c = '\n'
  · subst hc
    rw [if_pos rfl, Bool.and_eq_true] at h1
    obtain ⟨ha, hb⟩ := h1
    have hnot : '\n' ∉ p'.takeWhile pyIsSpace := by simpa using ha
    have hlt : (p'.takeWhile pyIsSpace).length < p'.length := by simpa using hb
    rw [sepMatch_nl_none_iff]
    have hstop : ∃ x ∈ p', pyIsSpace x = false := by
      by_contra hno
      push_neg at hno
      have hall : ∀ x ∈ p', pyIsSpace x = true := fun x hx => by
        have := hno x hx
        revert this
        cases pyIsSpace x <;> simp
      rw [List.takeWhile_eq_self_iff.mpr hall] at hlt
      exact Nat.lt_irrefl _ hlt
    rw [takeWhile_append_stop _ _ _ hstop]
    exact hnot
  · exact sepMatch_cons_ne _ _ hc

theorem splitOnce_join (q t : List Char) (hq : sealedB q = true)
    (ht : '\n' ∉ t.takeWhile pyIsSpace) :
    splitOnce (q ++ '\n' :: '\n' :: t) = some (q, t) := by
  induction q with
  | nil =>
    have hm : sepMatch ('\n' :: '\n' :: t) = some 2 := by
      rw [sepMatch_nl]
      have hc : sepConsume ('\n' :: t) = some 1 := by
        unfold sepConsume
        have htw : ('\n' :: t).takeWhile pyIsSpace = '\n' :: t.takeWhile pyIsSpace := by
          rw [List.takeWhile_cons, if_pos pyIsSpace_nl]
        rw [htw]
        unfold lastNlIdx
        rw [(lastNlIdx_none_iff _).mpr ht]
        simp
      rw [hc]
      rfl
    rw [List.nil_append]
    unfold splitOnce
    rw [hm]
    rfl
  | cons c q' ih =>
    have hq' : sealedB q' = true := by
      unfold sealedB at hq
      rw [Bool.and_eq_true] at hq
      exact hq.2
    have hm : sepMatch (c :: (q' ++ '\n' :: '\n' :: t)) = none :=
      sealed_head_no_match c q' _ hq
    show splitOnce (c :: (q' ++ '\n' :: '\n' :: t)) = _
    unfold splitOnce
    rw [hm, ih hq']
    rfl

theorem pySplitAux_succ_some (f : Nat) (s p r : List Char)
    (h : splitOnce s = some (p, r)) : pySplitAux (f + 1) s = p :: pySplitAux f r := by
  conv_lhs => unfold pySplitAux
  rw [h]

theorem pySplitAux_succ_none (f : Nat) (s : List Char) (h : splitOnce s = none) :
    pySplitAux (f + 1) s = [s] := by
  conv_lhs => unfold pySplitAux
  rw [h]

theorem pySplitAux_ne_nil (fuel : Nat) (s : List Char) : pySplitAux fuel s ≠ [] := by
  cases fuel with
  | zero => simp [pySplitAux]
  | succ f =>
    cases h : splitOnce s with
    | none => rw [pySplitAux_succ_none f s h]; simp
    | some pr => rw [pySplitAux_succ_some f s pr.1 pr.2 (by rw [h])]; simp

theorem joinParSep_cons_cons (q q2 : List Char) (rest : List (List Char)) :
    joinParSep (q :: q2 :: rest) = q ++ '\n' :: '\n' :: joinParSep (q2 :: rest) := by
  show q ++ parSep ++ joinParSep (q2 :: rest) = _
  rw [List.append_assoc]
  rfl

theorem join_leadOk (q2 : List Char) (rest : List (List Char))
    (hlead : leadOkB q2 = true) (hnw : rest ≠ [] → hasNonWsB q2 = true) :
    '\n' ∉ (joinParSep (q2 :: rest)).takeWhile pyIsSpace := by
  cases rest with
  | nil =>
    show '\n' ∉ q2.takeWhile pyIsSpace
    simpa [leadOkB] using hlead
  | cons r3 rest' =>
    rw [joinParSep_cons_cons]
    have hstop := hasNonWs_exists q2 (hnw (by simp))
    rw [takeWhile_append_stop _ _ _ hstop]
    simpa [leadOkB] using hlead

theorem rejoin_aux (qs : List (List Char)) : ∀ fuel, qs ≠ [] → segInv qs →
    (joinParSep qs).length ≤ fuel → pySplitAux fuel (joinParSep qs) = qs := by
  induction qs with
  | nil => intro fuel h; exact absurd rfl h
  | cons q qs' ih =>
    intro fuel _ hinv hfuel
    cases qs' with
    | nil =>
      have htame : tameB q = true := hinv
      have hnone : splitOnce q = none := tame_splitOnce_none q htame
      show pySplitAux fuel q = [q]
      cases fuel with
      | zero => rfl
      | succ f => exact pySplitAux_succ_none f q hnone
    | cons q2 rest =>
      obtain ⟨hsealed, hlead, hnw, hinv'⟩ := hinv
      have hJ := joinParSep_cons_cons q q2 rest
      have hso : splitOnce (joinParSep (q :: q2 :: rest)) =
          some (q, joinParSep (q2 :: rest)) := by
        rw [hJ]
        exact splitOnce_join q _ hsealed (join_leadOk q2 rest hlead hnw)
      have hlen : (joinParSep (q :: q2 :: rest)).length =
          q.length + 2 + (joinParSep (q2 :: rest)).length := by
        rw [hJ]
        simp [List.length_append]
        omega
      cases fuel with
      | zero =>
        exfalso
        rw [hlen] at hfuel
        omega
      | succ f =>
        rw [pySplitAux_succ_some f _ _ _ hso]
        congr 1
        apply ih f (by simp) hinv'
        rw [hlen] at hfuel
        omega

/-- Splitting the join of a non-empty `segInv` run recovers the run. -/
theorem pySplit_joinParSep (qs : List (List Char)) (h1 : qs ≠ []) (h2 : segInv qs) :
    pySplit (joinParSep qs) = qs :=
  rejoin_aux qs (joinParSep qs).length h1 h2 le_rfl

theorem splitOnce_piece_leadOk (s p r : List Char)
    (hlead : '\n' ∉ s.takeWhile pyIsSpace) (h : splitOnce s = some (p, r)) :
    leadOkB p = true ∧ hasNonWsB p = true := by
  have hnw := splitOnce_nonws s p r hlead h
  obtain ⟨w, hw⟩ := splitOnce_decomp s p r h
  have hstop := hasNonWs_exists p hnw
  have htw : s.takeWhile pyIsSpace = p.takeWhile pyIsSpace := by
    rw [hw]
    exact takeWhile_append_stop _ _ _ hstop
  rw [htw] at hlead
  exact ⟨by simpa [leadOkB] using hlead, hnw⟩

theorem segInv_pySplitAux (fuel : Nat) : ∀ s : List Char, s.length ≤ fuel →
    segInv (pySplitAux fuel s) ∧
      ('\n' ∉ s.takeWhile pyIsSpace → ∀ q Q, pySplitAux fuel s = q :: Q →
        leadOkB q = true ∧ (Q ≠ [] → hasNonWsB q = true)) := by
  induction fuel with
  | zero =>
    intro s hs
    have hnil : s = [] := List.length_eq_zero.mp (Nat.le_zero.mp hs)
    subst hnil
    refine ⟨rfl, ?_⟩
    intro _ q Q hQ
    simp only [pySplitAux] at hQ
    injection hQ with h1 h2
    subst h1
    subst h2
    exact ⟨rfl, by simp⟩
  | succ f ih =>
    intro s hs
    cases hso : splitOnce s with
    | none =>
      rw [pySplitAux_succ_none f s hso]
      refine ⟨splitOnce_none_tame s hso, ?_⟩
      intro hlead q Q hQ
      injection hQ with h1 h2
      subst h1
      subst h2
      refine ⟨by simpa [leadOkB] using hlead, by simp⟩
    | some pr =>
      obtain ⟨p, r⟩ := pr
      rw [pySplitAux_succ_some f s p r hso]
      have hrlen : r.length ≤ f := by
        have := splitOnce_length s p r hso
        omega
      have hleadr : '\n' ∉ r.takeWhile pyIsSpace := splitOnce_leadOk s p r hso
      obtain ⟨hinvQ, hheadQ⟩ := ih r hrlen
      cases hQ : pySplitAux f r with
      | nil => exact absurd hQ (pySplitAux_ne_nil f r)
      | cons q Q' =>
        obtain ⟨hq1, hq2⟩ := hheadQ hleadr q Q' hQ
        rw [hQ] at hinvQ
        constructor
        · show segInv (p :: q :: Q')
          exact ⟨splitOnce_sealed s p r hso, hq1, hq2, hinvQ⟩
        · intro hlead q0 Q0 hQ0
          injection hQ0 with h1 h2
          subst h1
          obtain ⟨hl, hn⟩ := splitOnce_piece_leadOk s p r hlead hso
          exact ⟨hl, fun _ => hn⟩

/-- The output of the paragraph split satisfies the piece invariant. -/
theorem segInv_pySplit (s : List Char) : segInv (pySplit s) :=
  (segInv_pySplitAux s.length s le_rfl).1

/-! The piece invariant restricts to the contiguous groups of any
partition, in particular to the chunker's groups. -/

theorem segInv_append_left (xs ys : List (List Char)) (h : segInv (xs ++ ys))
    (hys : ys ≠ []) : segInv xs := by
  induction xs with
  | nil => trivial
  | cons p xs' ih =>
    cases xs' with
    | nil =>
      cases ys with
      | nil => exact absurd rfl hys
      | cons y ys' =>
        obtain ⟨hs, _, _, _⟩ := h
        exact sealed_imp_tame p hs
    | cons q xs'' =>
      obtain ⟨hs, hl, hn, hrest⟩ := h
      refine ⟨hs, hl, fun _ => hn ?_, ih hrest⟩
      intro hcon
      exact hys (List.append_eq_nil.mp hcon).2

theorem segInv_append_right (xs ys : List (List Char)) (h : segInv (xs ++ ys)) :
    segInv ys := by
  induction xs with
  | nil => exact h
  | cons p xs' ih =>
    apply ih
    have h' : segInv (p :: (xs' ++ ys)) := h
    cases hxy : xs' ++ ys with
    | nil => trivial
    | cons z zs =>
      rw [hxy] at h'
      obtain ⟨_, _, _, h4⟩ := h'
      exact h4

theorem groups_segInv (gss : List (List (List Char)))
    (hinv : segInv gss.flatten) (hne : ∀ g ∈ gss, g ≠ []) :
    ∀ g ∈ gss, segInv g := by
  induction gss with
  | nil => intro g hg; cases hg
  | cons g1 gss' ih =>
    intro g hg
    have hflat : (g1 :: gss').flatten = g1 ++ gss'.flatten := rfl
    rw [hflat] at hinv
    rcases List.mem_cons.mp hg with rfl | hg'
    · cases hgs : gss'.flatten with
      | nil =>
        rw [hgs, List.append_nil] at hinv
        exact hinv
      | cons z zs =>
        exact segInv_append_left g gss'.flatten hinv (by rw [hgs]; simp)
    · exact ih (segInv_append_right g1 _ hinv)
        (fun g' hgm => hne g' (List.mem_cons_of_mem _ hgm)) g hg'

/-! The chunker's groups partition the paragraph list, are non-empty, and
respect the size bound except for single oversized paragraphs. -/

theorem chunkAux_flatten (ps : List (List Char)) : ∀ cur size maxT,
    (chunkAux ps cur size maxT).flatten = cur ++ ps := by
  induction ps with
  | nil =>
    intro cur size maxT
    unfold chunkAux
    by_cases hc : cur.isEmpty
    · rw [if_pos hc]
      simp [List.isEmpty_iff.mp hc]
    · rw [if_neg hc]
      simp
  | cons p ps' ih =>
    intro cur size maxT
    unfold chunkAux
    by_cases hc : size + wordCount p > maxT ∧ ¬cur.isEmpty
    · rw [if_pos hc]
      show cur ++ (chunkAux ps' [p] (wordCount p) maxT).flatten = cur ++ p :: ps'
      rw [ih]
      rfl
    · rw [if_neg hc, ih]
      simp

theorem chunkAux_ne_nil (ps : List (List Char)) : ∀ cur size maxT g,
    g ∈ chunkAux ps cur size maxT → g ≠ [] := by
  induction ps with
  | nil =>
    intro cur size maxT g hg
    unfold chunkAux at hg
    by_cases hc : cur.isEmpty
    · rw [if_pos hc] at hg; cases hg
    · rw [if_neg hc] at hg
      rcases List.mem_singleton.mp hg with rfl
      exact fun hnil => hc (List.isEmpty_iff.mpr hnil)
  | cons p ps' ih =>
    intro cur size maxT g hg
    unfold chunkAux at hg
    by_cases hc : size + wordCount p > maxT ∧ ¬cur.isEmpty
    · rw [if_pos hc] at hg
      rcases List.mem_cons.mp hg with rfl | hg'
      · exact fun hnil => hc.2 (List.isEmpty_iff.mpr hnil)
      · exact ih _ _ _ g hg'
    · rw [if_neg hc] at hg
      exact ih _ _ _ g hg

theorem chunkAux_bound (ps : List (List Char)) : ∀ cur size maxT,
    size = (cur.map wordCount).sum →
    ((cur.map wordCount).sum ≤ maxT ∨ ∃ p, cur = [p] ∧ maxT < wordCount p) →
    ∀ g ∈ chunkAux ps cur size maxT,
      (g.map wordCount).sum ≤ maxT ∨ ∃ p, g = [p] ∧ maxT < wordCount p := by
  induction ps with
  | nil =>
    intro cur size maxT _ hH g hg
    unfold chunkAux at hg
    by_cases hc : cur.isEmpty
    · rw [if_pos hc] at hg; cases hg
    · rw [if_neg hc] at hg
      rcases List.mem_singleton.mp hg with rfl
      exact hH
  | cons p ps' ih =>
    intro cur size maxT hsz hH g hg
    unfold chunkAux at hg
    by_cases hc : size + wordCount p > maxT ∧ ¬cur.isEmpty
    · rw [if_pos hc] at hg
      rcases List.mem_cons.mp hg with rfl | hg'
      · exact hH
      · refine ih [p] (wordCount p) maxT (by simp) ?_ g hg'
        rcases le_or_lt (wordCount p) maxT with h | h
        · left; simpa using h
        · right; exact ⟨p, rfl, h⟩
    · rw [if_neg hc] at hg
      refine ih (cur ++ [p]) (size + wordCount p) maxT (by rw [hsz]; simp) ?_ g hg
      rcases Classical.em (size + wordCount p > maxT) with hgt | hle
      · have hcur : cur = [] := by
          by_contra hne
          exact hc ⟨hgt, fun he => hne (List.isEmpty_iff.mp he)⟩
        subst hcur
        rcases le_or_lt (wordCount p) maxT with h | h
        · left; simpa using h
        · right; exact ⟨p, rfl, h⟩
      · left
        rw [List.map_append, List.sum_append]
        have := Nat.le_of_not_lt hle
        simp only [List.map_cons, List.map_nil, List.sum_cons, List.sum_nil]
        omega

/-! Word counts: joining with the blank-line separator adds word counts,
since `'\n'` is whitespace. -/

theorem pyWords_nil : pyWords [] = [] := by
  conv_lhs => unfold pyWords

theorem pyWords_cons (c : Char) (rest : List Char) :
    pyWords (c :: rest) = if pyIsSpace c then pyWords rest else pyWordsIn [c] rest := by
  conv_lhs => unfold pyWords

theorem pyWordsIn_nil (acc : List Char) : pyWordsIn acc [] = [acc.reverse] := by
  conv_lhs => unfold pyWordsIn

theorem pyWordsIn_cons (acc : List Char) (c : Char) (rest : List Char) :
    pyWordsIn acc (c :: rest) =
      if pyIsSpace c then acc.reverse :: pyWords rest else pyWordsIn (c :: acc) rest := by
  conv_lhs => unfold pyWordsIn

theorem pyWords_split (xs : List Char) : ∀ ys acc,
    pyWords (xs ++ '\n' :: ys) = pyWords xs ++ pyWords ys ∧
    pyWordsIn acc (xs ++ '\n' :: ys) = pyWordsIn acc xs ++ pyWords ys := by
  induction xs with
  | nil =>
    intro ys acc
    constructor
    · show pyWords ('\n' :: ys) = pyWords [] ++ pyWords ys
      rw [pyWords_cons, if_pos pyIsSpace_nl, pyWords_nil, List.nil_append]
    · show pyWordsIn acc ('\n' :: ys) = pyWordsIn acc [] ++ pyWords ys
      rw [pyWordsIn_cons, if_pos pyIsSpace_nl, pyWordsIn_nil, List.singleton_append]
  | cons c xs' ih =>
    intro ys acc
    constructor
    · show pyWords (c :: (xs' ++ '\n' :: ys)) = pyWords (c :: xs') ++ pyWords ys
      rw [pyWords_cons, pyWords_cons]
      by_cases hc : pyIsSpace c
      · rw [if_pos hc, if_pos hc]
        exact (ih ys acc).1
      · rw [if_neg hc, if_neg hc]
        exact (ih ys [c]).2
    · show pyWordsIn acc (c :: (xs' ++ '\n' :: ys)) =
        pyWordsIn acc (c :: xs') ++ pyWords ys
      rw [pyWordsIn_cons, pyWordsIn_cons]
      by_cases hc : pyIsSpace c
      · rw [if_pos hc, if_pos hc, List.cons_append, (ih ys acc).1]
      · rw [if_neg hc, if_neg hc]
        exact (ih ys (c :: acc)).2

theorem pyWords_nl_cons (b : List Char) : pyWords ('\n' :: b) = pyWords b := by
  rw [pyWords_cons, if_pos pyIsSpace_nl]

theorem wordCount_append_nl (a b : List Char) :
    wordCount (a ++ '\n' :: b) = wordCount a + wordCount b := by
  unfold wordCount
  rw [(pyWords_split a b []).1, List.length_append]

theorem wordCount_joinParSep (g : List (List Char)) :
    wordCount (joinParSep g) = (g.map wordCount).sum := by
  induction g with
  | nil => rfl
  | cons q g' ih =>
    cases g' with
    | nil => simp [joinParSep]
    | cons q2 rest =>
      rw [joinParSep_cons_cons, wordCount_append_nl]
      have h2 : wordCount ('\n' :: joinParSep (q2 :: rest)) =
          wordCount (joinParSep (q2 :: rest)) := by
        unfold wordCount
        rw [pyWords_nl_cons]
      rw [h2, ih]
      simp

/-! Facts about the cleaner: its output contains no newline, so the
blank-line split of a cleaned text is a single paragraph and the chunker
emits exactly one chunk. -/

theorem collapseWsAux_no_nl (s : List Char) : ∀ b, '\n' ∉ collapseWsAux b s := by
  induction s with
  | nil =>
    intro b
    simp [collapseWsAux]
  | cons c rest ih =>
    intro b
    unfold collapseWsAux
    by_cases hc : pyIsSpace c
    · rw [if_pos hc]
      cases b with
      | true =>
        rw [if_pos rfl]
        exact ih true
      | false =>
        rw [if_neg (by simp)]
        intro hm
        rcases List.mem_cons.mp hm with h | h
        · exact absurd h (by decide)
        · exact ih true h
    · rw [if_neg hc]
      intro hm
      rcases List.mem_cons.mp hm with h | h
      · rw [← h] at hc
        exact hc pyIsSpace_nl
      · exact ih false h

theorem fixHyphens_cons_eq (a : Char) (rest : List Char)
    (h1 : ∀ (b : Char) (r : List Char), rest = '-' :: ' ' :: b :: r → False) :
    fixHyphens (a :: rest) = a :: fixHyphens rest := by
  conv_lhs => rw [fixHyphens.eq_def]
  split
  · rename_i heq
    exact absurd heq (by simp)
  · rename_i a1 b r heq
    injection heq with h2 h3
    exact absurd h3 (fun hx => h1 b r hx)
  · rename_i a1 r heq h2
    injection h2 with h3 h4
    subst h3
    subst h4
    rfl

theorem fixHyphens_subset (s : List Char) : ∀ c ∈ fixHyphens s, c ∈ s := by
  induction s using fixHyphens.induct with
  | case1 => simp [fixHyphens]
  | case2 a b rest hw ih =>
    intro c hc
    rw [show fixHyphens (a :: '-' :: ' ' :: b :: rest) = a :: b :: fixHyphens rest from by
      rw [fixHyphens, if_pos hw]] at hc
    rcases List.mem_cons.mp hc with rfl | hc
    · exact List.mem_cons_self _ _
    rcases List.mem_cons.mp hc with rfl | hc
    · simp
    · have := ih c hc
      simp only [List.mem_cons] at this ⊢
      tauto
  | case3 a b rest hw ih =>
    intro c hc
    rw [show fixHyphens (a :: '-' :: ' ' :: b :: rest) =
        a :: fixHyphens ('-' :: ' ' :: b :: rest) from by
      rw [fixHyphens, if_neg hw]] at hc
    rcases List.mem_cons.mp hc with rfl | hc
    · exact List.mem_cons_self _ _
    · have := ih c hc
      simp only [List.mem_cons] at this ⊢
      tauto
  | case4 a rest h1 ih =>
    intro c hc
    rw [fixHyphens_cons_eq a rest h1] at hc
    rcases List.mem_cons.mp hc with rfl | hc
    · exact List.mem_cons_self _ _
    · exact List.mem_cons_of_mem a (ih c hc)

theorem pyStrip_subset (s : List Char) : ∀ c ∈ pyStrip s, c ∈ s := by
  intro c hc
  unfold pyStrip at hc
  rw [List.mem_reverse] at hc
  have h2 : c ∈ (s.dropWhile pyIsSpace).reverse := (List.dropWhile_sublist _).subset hc
  rw [List.mem_reverse] at h2
  exact (List.dropWhile_sublist _).subset h2

theorem clean_no_nl (s : List Char) : '\n' ∉ clean_section_text s := by
  intro h
  unfold clean_section_text at h
  have h1 := pyStrip_subset _ _ h
  have h2 := fixHyphens_subset _ _ h1
  exact collapseWsAux_no_nl _ false h2

theorem splitOnce_no_nl (t : List Char) (h : '\n' ∉ t) : splitOnce t = none := by
  induction t with
  | nil => rfl
  | cons c rest ih =>
    have hm : sepMatch (c :: rest) = none :=
      sepMatch_cons_ne c rest
        (fun hc => h (by rw [hc]; exact List.mem_cons_self _ _))
    unfold splitOnce
    rw [hm, ih (fun hr => h (List.mem_cons_of_mem c hr))]
    rfl

theorem pySplit_no_nl (t : List Char) (h : '\n' ∉ t) : pySplit t = [t] := by
  unfold pySplit
  cases hf : t.length with
  | zero => rfl
  | succ n => exact pySplitAux_succ_none n t (splitOnce_no_nl t h)

theorem create_logical_chunks_no_nl (t : List Char) (maxT : Nat) (h : '\n' ∉ t) :
    create_logical_chunks t maxT = [t] := by
  unfold create_logical_chunks
  rw [pySplit_no_nl t h]
  unfold chunkAux
  rw [if_neg (by simp)]
  unfold chunkAux
  rw [if_neg (by simp)]
  rfl

theorem enumChunks_length (nm : List Char) (md : CaseMeta) (total : Nat)
    (bodies : List (List Char)) : ∀ i, (enumChunks nm md total i bodies).length =
      bodies.length := by
  induction bodies with
  | nil => intro i; rfl
  | cons b bs ih =>
    intro i
    show (enumChunks nm md total (i + 1) bs).length + 1 = bs.length + 1
    rw [ih (i + 1)]

theorem enumChunks_chunkCount (nm : List Char) (md : CaseMeta) (total : Nat)
    (bodies : List (List Char)) : ∀ i ch, ch ∈ enumChunks nm md total i bodies →
      ch.chunkCount = total := by
  induction bodies with
  | nil => intro i ch hch; cases hch
  | cons b bs ih =>
    intro i ch hch
    rcases List.mem_cons.mp hch with rfl | hch
    · rfl
    · exact ih (i + 1) ch hch

/-! # Claim theorems -/

/-- C2: for every input text and every `max_tokens`, each chunk produced by
`create_logical_chunks` has a word count that does not exceed `max_tokens`,
except when the chunk is exactly one paragraph of the input whose own word
count exceeds `max_tokens`; such an oversized paragraph becomes its own
chunk (it is one unsplit paragraph of the original split). -/
theorem c2_chunk_word_bound (text : List Char) (maxT : Nat) (c : List Char)
    (hc : c ∈ create_logical_chunks text maxT) :
    wordCount c ≤ maxT ∨ (c ∈ pySplit text ∧ maxT < wordCount c) := by
  unfold create_logical_chunks at hc
  obtain ⟨g, hg, rfl⟩ := List.mem_map.mp hc
  have hb := chunkAux_bound (pySplit text) [] 0 maxT rfl
    (Or.inl (by simp)) g hg
  rcases hb with hle | ⟨p, rfl, hgt⟩
  · left
    rw [wordCount_joinParSep]
    exact hle
  · right
    have hj : joinParSep [p] = p := rfl
    rw [hj]
    refine ⟨?_, hgt⟩
    have hflat := chunkAux_flatten (pySplit text) [] 0 maxT
    rw [List.nil_append] at hflat
    rw [← hflat]
    exact List.mem_flatten.mpr ⟨[p], hg, List.mem_singleton.mpr rfl⟩

/-- Witness for C2 at a concrete input: with `max_tokens = 4`, the chunk
`"one two three"` of `"one two three\n\nfour five"` has word count 3 ≤ 4. -/
theorem c2_chunk_word_bound_witness :
    wordCount (str "one two three") ≤ 4 ∨
      (str "one two three" ∈ pySplit (str "one two three\n\nfour five") ∧
        4 < wordCount (str "one two three")) :=
  c2_chunk_word_bound (str "one two three\n\nfour five") 4 (str "one two three")
    (by decide)

/-- C3: splitting each chunk back on the blank-line separator and
concatenating the results, in chunk order, yields exactly the paragraph
sequence obtained by splitting the original input. -/
theorem c3_chunks_rejoin (text : List Char) (maxT : Nat) :
    ((create_logical_chunks text maxT).map pySplit).flatten = pySplit text := by
  unfold create_logical_chunks
  set gss := chunkAux (pySplit text) [] 0 maxT with hgss
  have hpart : gss.flatten = pySplit text := by
    rw [hgss, chunkAux_flatten, List.nil_append]
  have hne : ∀ g ∈ gss, g ≠ [] := fun g hg => chunkAux_ne_nil _ _ _ _ g (hgss ▸ hg)
  have hinv : ∀ g ∈ gss, segInv g :=
    groups_segInv gss (by rw [hpart]; exact segInv_pySplit text) hne
  have hmap : gss.map (fun g => pySplit (joinParSep g)) = gss.map id :=
    List.map_congr_left (fun g hg => pySplit_joinParSep g (hne g hg) (hinv g hg))
  calc ((gss.map joinParSep).map pySplit).flatten
      = (gss.map (fun g => pySplit (joinParSep g))).flatten := by
        rw [List.map_map]
        rfl
    _ = (gss.map id).flatten := by rw [hmap]
    _ = gss.flatten := by rw [List.map_id]
    _ = pySplit text := hpart

/-- C4 counterexample: on the empty input, `create_logical_chunks` does
not return the empty list (the claimed behaviour); it returns one empty
chunk, because `re.split` on the empty string yields `[""]` and the final
`if current_chunk` test sees the non-empty list `[""]`. -/
theorem c4_counterexample : create_logical_chunks [] 800 ≠ [] := by decide

/-- C4 amended: on the empty input text, `create_logical_chunks` returns a
single-element list containing the empty chunk, for every `max_tokens`. -/
theorem c4_amended_empty_input (maxT : Nat) : create_logical_chunks [] maxT = [[]] := by
  show (chunkAux (pySplit []) [] 0 maxT).map joinParSep = [[]]
  have h1 : pySplit [] = [[]] := rfl
  rw [h1]
  unfold chunkAux
  rw [if_neg (by simp)]
  unfold chunkAux
  rw [if_neg (by simp)]
  rfl

/-- C1: in the per-document pipeline the chunker only ever sees text that
went through `clean_section_text`, whose output contains no newline; the
blank-line split of such text is the single paragraph equal to the whole
text, `create_logical_chunks` returns that one chunk whatever `max_tokens`
is, and every chunk a non-skipped section contributes carries
`chunk_count = 1`. -/
theorem c1_cleaned_text_single_chunk (raw sectionName : List Char) (md : CaseMeta)
    (maxT : Nat) :
    pySplit (clean_section_text raw) = [clean_section_text raw] ∧
    create_logical_chunks (clean_section_text raw) maxT = [clean_section_text raw] ∧
    (processSection sectionName raw md maxT = [] ∨
      (processSection sectionName raw md maxT).length = 1) ∧
    (∀ ch ∈ processSection sectionName raw md maxT, ch.chunkCount = 1) := by
  have hnl : '\n' ∉ clean_section_text raw := clean_no_nl raw
  have hone : create_logical_chunks (clean_section_text raw) maxT =
      [clean_section_text raw] := create_logical_chunks_no_nl _ maxT hnl
  refine ⟨pySplit_no_nl _ hnl, hone, ?_, ?_⟩
  · unfold processSection
    by_cases hskip : (pyStrip raw).length ≤ sectionName.length + 5
    · left
      rw [if_pos hskip]
    · right
      rw [if_neg hskip]
      simp only [create_chunks_with_metadata]
      rw [enumChunks_length, hone]
      rfl
  · intro ch hch
    unfold processSection at hch
    by_cases hskip : (pyStrip raw).length ≤ sectionName.length + 5
    · rw [if_pos hskip] at hch
      cases hch
    · rw [if_neg hskip] at hch
      simp only [create_chunks_with_metadata] at hch
      have hcnt := enumChunks_chunkCount _ _ _ _ _ ch hch
      rw [hcnt, hone]
      rfl

/-- Witness for C1: a concrete non-skipped section produces, even with
`max_tokens = 3` (far below its word count), exactly the one chunk whose
`chunk_count` is 1. -/
theorem c1_cleaned_text_single_chunk_witness :
    mkChunk (str "ISSUES") ⟨str "JOHN DOE", str "123,456", str "ACME CORP",
        str "case.pdf"⟩ 0 1
      (clean_section_text (str "ISSUES\nWhat is the nature and extent of the injury?")) ∈
      processSection (str "ISSUES")
        (str "ISSUES\nWhat is the nature and extent of the injury?")
        ⟨str "JOHN DOE", str "123,456", str "ACME CORP", str "case.pdf"⟩ 3 ∧
    (mkChunk (str "ISSUES") ⟨str "JOHN DOE", str "123,456", str "ACME CORP",
        str "case.pdf"⟩ 0 1
      (clean_section_text
        (str "ISSUES\nWhat is the nature and extent of the injury?"))).chunkCount = 1 :=
  ⟨by decide,
    (c1_cleaned_text_single_chunk
      (str "ISSUES\nWhat is the nature and extent of the injury?") (str "ISSUES")
      ⟨str "JOHN DOE", str "123,456", str "ACME CORP", str "case.pdf"⟩ 3).2.2.2 _
      (by decide)⟩

/-- C6: in the per-document pipeline a section contributes zero chunks if
and only if the length of its stripped section text is at most its
section-name length plus 5.  (`identify_sections` already strips the
section text, so the skip test's `section_text.strip()` is the section's
stripped body, heading included; the test runs before `clean_section_text`,
matching the pipeline order.) -/
theorem c6_skip_iff (sectionName sectionText : List Char) (md : CaseMeta) (maxT : Nat) :
    processSection sectionName sectionText md maxT = [] ↔
      (pyStrip sectionText).length ≤ sectionName.length + 5 := by
  unfold processSection
  by_cases hskip : (pyStrip sectionText).length ≤ sectionName.length + 5
  · rw [if_pos hskip]
    simp [hskip]
  · rw [if_neg hskip]
    simp only [hskip, iff_false]
    intro hcon
    have hlen : (create_chunks_with_metadata sectionName
        (clean_section_text sectionText) md maxT).length = 1 := by
      simp only [create_chunks_with_metadata]
      rw [enumChunks_length, create_logical_chunks_no_nl _ maxT (clean_no_nl _)]
      rfl
    rw [hcon] at hlen
    exact Nat.noConfusion hlen

/-- Witness for C6: a section whose stripped text is just its heading (at
most 5 characters beyond the name length) contributes zero chunks. -/
theorem c6_skip_iff_witness :
    processSection (str "AWARD") (str "AWARD\n  ")
      ⟨str "JOHN DOE", str "123,456", str "Unknown", str "case.pdf"⟩ 800 = [] :=
  (c6_skip_iff (str "AWARD") (str "AWARD\n  ")
    ⟨str "JOHN DOE", str "123,456", str "Unknown", str "case.pdf"⟩ 800).mpr (by decide)

/-! Sortedness of the match positions and the span structure built from
them. -/

theorem insertPos_cons (x y : Nat × List Char) (ys : List (Nat × List Char)) :
    insertPos x (y :: ys) = if y.1 ≤ x.1 then y :: insertPos x ys else x :: y :: ys := by
  rfl

theorem insertPos_chain (x : Nat × List Char) :
    ∀ l, List.Chain' (fun a b : Nat × List Char => a.1 ≤ b.1) l →
      List.Chain' (fun a b : Nat × List Char => a.1 ≤ b.1) (insertPos x l) := by
  intro l
  induction l with
  | nil =>
    intro _
    simp [insertPos]
  | cons y ys ih =>
    intro h
    rw [insertPos_cons]
    by_cases hc : y.1 ≤ x.1
    · rw [if_pos hc]
      cases ys with
      | nil => exact List.chain'_pair.mpr hc
      | cons z zs =>
        rw [List.chain'_cons] at h
        have hrec := ih h.2
        by_cases hz : z.1 ≤ x.1
        · rw [insertPos_cons, if_pos hz] at hrec ⊢
          exact List.chain'_cons.mpr ⟨h.1, hrec⟩
        · rw [insertPos_cons, if_neg hz]
          exact List.chain'_cons.mpr ⟨hc,
            List.chain'_cons.mpr ⟨Nat.le_of_not_le hz, h.2⟩⟩
    · rw [if_neg hc]
      exact List.chain'_cons.mpr ⟨Nat.le_of_not_le hc, h⟩

theorem sortPos_chain (l : List (Nat × List Char)) :
    List.Chain' (fun a b : Nat × List Char => a.1 ≤ b.1) (sortPos l) := by
  induction l with
  | nil => simp [sortPos]
  | cons x xs ih => exact insertPos_chain x (sortPos xs) ih

theorem buildSections_chain (combined : List Char) (pages : List (List Char)) :
    ∀ ps, List.Chain' (fun a b : Nat × List Char => a.1 ≤ b.1) ps →
      List.Chain' (fun a b : Sect => a.start ≤ b.start ∧
        a.text = sliceStrip combined a.start b.start) (buildSections combined pages ps) := by
  intro ps
  induction ps with
  | nil =>
    intro _
    simp [buildSections]
  | cons q qs ih =>
    obtain ⟨p, nm⟩ := q
    intro h
    cases qs with
    | nil => simp [buildSections]
    | cons q2 rest =>
      obtain ⟨p2, nm2⟩ := q2
      rw [List.chain'_cons] at h
      have hrec := ih h.2
      show List.Chain' _
        (Sect.mk nm (sliceStrip combined p p2) (pageNumOf pages p) p ::
          buildSections combined pages ((p2, nm2) :: rest))
      cases rest with
      | nil => exact List.chain'_cons.mpr ⟨⟨h.1, rfl⟩, List.chain'_singleton _⟩
      | cons q3 rest' =>
        obtain ⟨p3, nm3⟩ := q3
        exact List.chain'_cons.mpr ⟨⟨h.1, rfl⟩, hrec⟩

theorem buildSections_last (combined : List Char) (pages : List (List Char)) :
    ∀ ps s, (buildSections combined pages ps).getLast? = some s →
      s.text = sliceStrip combined s.start combined.length := by
  intro ps
  induction ps with
  | nil =>
    intro s hs
    simp [buildSections] at hs
  | cons q qs ih =>
    obtain ⟨p, nm⟩ := q
    intro s hs
    cases qs with
    | nil =>
      simp only [buildSections, List.getLast?_singleton, Option.some.injEq] at hs
      rw [← hs]
    | cons q2 rest =>
      obtain ⟨p2, nm2⟩ := q2
      rw [show buildSections combined pages ((p, nm) :: (p2, nm2) :: rest) =
          Sect.mk nm (sliceStrip combined p p2) (pageNumOf pages p) p ::
            buildSections combined pages ((p2, nm2) :: rest) from rfl] at hs
      apply ih s
      cases hb : buildSections combined pages ((p2, nm2) :: rest) with
      | nil =>
        exfalso
        cases rest with
        | nil => exact List.noConfusion hb
        | cons q3 rest' =>
          obtain ⟨p3, nm3⟩ := q3
          exact List.noConfusion hb
      | cons S2 T =>
        rw [hb] at hs
        rwa [List.getLast?_cons_cons] at hs

/-- C5: sections returned by `identify_sections` are ordered by
`start_offset` ascending with contiguous, non-overlapping spans — each
section's stored text is the stripped slice of the joined page text from
its own start to the next section's start, and the last section's text is
the stripped slice running to the end of the joined text; when no heading
pattern matches anywhere, the result is empty. -/
theorem c5_sections_contiguous (pages : List (List Char)) :
    List.Chain' (fun a b : Sect => a.start ≤ b.start ∧
        a.text = sliceStrip (List.intercalate ['\n'] pages) a.start b.start)
      (identify_sections pages) ∧
    (∀ s, (identify_sections pages).getLast? = some s →
      s.text = sliceStrip (List.intercalate ['\n'] pages) s.start
        (List.intercalate ['\n'] pages).length) ∧
    (allSectionMatches (List.intercalate ['\n'] pages) = [] →
      identify_sections pages = []) := by
  refine ⟨?_, ?_, ?_⟩
  · exact buildSections_chain _ pages _ (sortPos_chain _)
  · intro s hs
    exact buildSections_last _ pages _ s hs
  · intro h
    show buildSections _ pages (sortPos (allSectionMatches _)) = []
    rw [h]
    rfl

/-- Witness for C5: a one-page document with a single heading yields one
section whose text is the stripped slice running to the end of the text. -/
theorem c5_sections_contiguous_witness :
    (identify_sections [str "FINDINGS OF FACT\nThe claimant was injured."]).getLast? =
      some ⟨str "FINDINGS OF FACT",
        str "FINDINGS OF FACT\nThe claimant was injured.", 0, 0⟩ ∧
    (Sect.mk (str "FINDINGS OF FACT")
        (str "FINDINGS OF FACT\nThe claimant was injured.") 0 0).text =
      sliceStrip (List.intercalate ['\n']
          [str "FINDINGS OF FACT\nThe claimant was injured."]) 0
        (List.intercalate ['\n']
          [str "FINDINGS OF FACT\nThe claimant was injured."]).length :=
  ⟨by decide,
    (c5_sections_contiguous [str "FINDINGS OF FACT\nThe claimant was injured."]).2.1 _
      (by decide)⟩

/-- C10: because every pattern is matched independently against the full
text, the heading occurrence `"PRINCIPLES OF LAW AND ANALYSIS"` produces
two sections — one named by the full heading and one named `"ANALYSIS"`
starting 22 characters later, inside the same heading occurrence — and the
former's span is truncated where the latter begins. -/
theorem c10_overlapping_patterns :
    identify_sections [str "PRINCIPLES OF LAW AND ANALYSIS\nThe Board reviews the record."] =
      [⟨str "PRINCIPLES OF LAW AND ANALYSIS", str "PRINCIPLES OF LAW AND", 0, 0⟩,
       ⟨str "ANALYSIS", str "ANALYSIS\nThe Board reviews the record.", 0, 22⟩] := by
  decide

/-- C7: in `extract_case_info`, a stripped claimant/respondent candidate
that lacks a space or contains a lowercase letter never passes validation,
so the loop falls through to the later patterns (or leaves `"Unknown"`);
an accepted candidate ends the loop at once, so no later pattern is tried. -/
theorem c7_name_validation :
    (∀ cm dm rm, (extract_case_info cm dm rm).claimant = selectName cm ∧
        (extract_case_info cm dm rm).respondent = selectName rm) ∧
    (∀ c rest, validName (pyStrip c) = false →
        selectName (some c :: rest) = selectName rest) ∧
    (∀ c rest, validName (pyStrip c) = true →
        selectName (some c :: rest) = pyStrip c) ∧
    (∀ rest, selectName (none :: rest) = selectName rest) ∧
    (selectName [] = str "Unknown") ∧
    (∀ s : List Char, (¬(' ' ∈ s) ∨ ∃ ch ∈ s, isAsciiLower ch = true) →
        validName s = false) := by
  refine ⟨fun cm dm rm => ⟨rfl, rfl⟩, ?_, ?_, fun rest => rfl, rfl, ?_⟩
  · intro c rest hv
    show (if validName (pyStrip c) = true then pyStrip c else selectName rest) = _
    rw [if_neg (by rw [hv]; simp)]
  · intro c rest hv
    show (if validName (pyStrip c) = true then pyStrip c else selectName rest) = _
    rw [if_pos hv]
  · intro s hs
    unfold validName
    rcases hs with hns | ⟨ch, hch, hlow⟩
    · have hcf : s.contains ' ' = false := by
        rw [← Bool.not_eq_true]
        intro hcon
        exact hns (List.elem_iff.mp hcon)
      rw [hcf, Bool.false_and]
    · have haf : s.all (fun c => !isAsciiLower c) = false := by
        rw [← Bool.not_eq_true, List.all_eq_true]
        intro hall
        have := hall ch hch
        rw [hlow] at this
        simp at this
      unfold pyIsUpperStr
      rw [haf, Bool.and_false, Bool.and_false]

/-- Witness for C7: `" jsmith "` (no interior space after stripping) and
`"JOHN  SMITH Jr"` (contains lowercase) are rejected in turn; the third
pattern's candidate `" JOHN SMITH "` is accepted, stripped. -/
theorem c7_name_validation_witness :
    selectName [some (str " jsmith "), some (str "JOHN  SMITH Jr"),
        some (str " JOHN SMITH ")] = str "JOHN SMITH" ∧
    validName (str "jsmith") = false := by
  constructor
  · calc selectName [some (str " jsmith "), some (str "JOHN  SMITH Jr"),
          some (str " JOHN SMITH ")]
        = selectName [some (str "JOHN  SMITH Jr"), some (str " JOHN SMITH ")] :=
          c7_name_validation.2.1 _ _ (by decide)
      _ = selectName [some (str " JOHN SMITH ")] :=
          c7_name_validation.2.1 _ _ (by decide)
      _ = pyStrip (str " JOHN SMITH ") := c7_name_validation.2.2.1 _ _ (by decide)
      _ = str "JOHN SMITH" := by decide
  · exact c7_name_validation.2.2.2.2.2 _ (Or.inl (by decide))

/-- C8: `process_pdf_file` never propagates an exception: for every path
and every extraction outcome the result is either a success record, or an
error record carrying the file's basename, the error message and the
diagnostic trace built from it — one failing document yields a returned
error value rather than an abort. -/
theorem c8_error_isolation (path : List Char)
    (res : Except (List Char) (List (List Char)))
    (metaOf : List (List Char) → CaseInfo) :
    (∃ cs md, process_pdf_file path res metaOf =
      ProcResult.success (pyBasename path) cs md) ∨
    (∃ e, res = Except.error e ∧ process_pdf_file path res metaOf =
      ProcResult.failure (pyBasename path) e (mkTrace e)) := by
  cases res with
  | error e => exact Or.inr ⟨e, rfl, rfl⟩
  | ok pages => exact Or.inl ⟨_, _, rfl⟩

/-- C9: with resume enabled, every file whose basename equals the
`metadata.filename` of a record already in the existing output is excluded
from the files processed, even when it passes the directory scan and the
filename filter; and the output is the existing records with the new
chunks appended, not an overwrite. -/
theorem c9_resume_excludes (dir : List Char) (listing : List (List Char))
    (patMatch : Option (List Char → Bool)) (recs : List Chunk)
    (extractOf : List Char → Except (List Char) (List (List Char)))
    (metaOf : List (List Char) → CaseInfo) :
    (∀ f ∈ (process_directory dir listing patMatch true (some recs) extractOf metaOf).1,
        pyBasename f ∉ recs.map (fun c => c.filename)) ∧
    (∀ g ∈ listing, pyBasename (pyJoin dir g) ∈ recs.map (fun c => c.filename) →
        pyJoin dir g ∉
          (process_directory dir listing patMatch true (some recs) extractOf metaOf).1) ∧
    (∃ newChunks,
      (process_directory dir listing patMatch true (some recs) extractOf metaOf).2 =
        recs ++ newChunks) := by
  have h1 : (process_directory dir listing patMatch true (some recs) extractOf metaOf).1 =
      (find_pdf_files dir listing patMatch).filter
        (fun f => !((recs.map (fun c => c.filename)).contains (pyBasename f))) := rfl
  refine ⟨?_, ?_, ⟨_, rfl⟩⟩
  · intro f hf
    rw [h1] at hf
    have hp := List.of_mem_filter hf
    intro hmem
    simp at hp
    obtain ⟨c, hcrec, hcf⟩ := List.mem_map.mp hmem
    exact hp c hcrec hcf
  · intro g _ hmem hcon
    rw [h1] at hcon
    have hp := List.of_mem_filter hcon
    simp at hp
    obtain ⟨c, hcrec, hcf⟩ := List.mem_map.mp hmem
    exact hp c hcrec hcf

/-- Witness for C9: with `"case001.pdf"` already recorded in the output,
resuming excludes `data/case001.pdf` although it matches the scan. -/
theorem c9_resume_excludes_witness :
    pyJoin (str "data") (str "case001.pdf") ∉
      (process_directory (str "data") [str "case001.pdf", str "case002.pdf"] none true
        (some [⟨str "t", str "d", str "c", str "s", 0, 1, str "case001.pdf", none⟩])
        (fun _ => Except.error (str "boom"))
        (fun _ => ⟨str "Unknown", str "Unknown", str "Unknown"⟩)).1 :=
  (c9_resume_excludes (str "data") [str "case001.pdf", str "case002.pdf"] none
      [⟨str "t", str "d", str "c", str "s", 0, 1, str "case001.pdf", none⟩]
      (fun _ => Except.error (str "boom"))
      (fun _ => ⟨str "Unknown", str "Unknown", str "Unknown"⟩)).2.1
    (str "case001.pdf") (by decide) (by decide)

end KSWC

